import Mathlib

/-!
Shallow embedding of the `netdb` Go package (`netdb.go`): parsing of
protocol and service tables from line-oriented text, and the four
linear-scan query functions. Strings are modelled as `List Char`; the
Go `panic` on a parse error is modelled by the loader returning `none`.
-/

namespace Netdb

/-- Model of Go `unicode.IsSpace` (the characters with the Unicode
White_Space property), used by `strings.TrimSpace` and `strings.Fields`. -/
def isSpace (c : Char) : Bool :=
  c = ' ' || c = '\t' || c = '\n' || c.toNat = 11 || c.toNat = 12 || c = '\r' ||
  c.toNat = 0x85 || c.toNat = 0xA0 || c.toNat = 0x1680 ||
  (0x2000 ≤ c.toNat && c.toNat ≤ 0x200A) ||
  c.toNat = 0x2028 || c.toNat = 0x2029 || c.toNat = 0x202F ||
  c.toNat = 0x205F || c.toNat = 0x3000

/-- `strings.TrimSpace`, leading part: drop leading white space. -/
def trimLeft (l : List Char) : List Char := l.dropWhile isSpace

/-- `strings.TrimSpace`, trailing part: drop trailing white space. -/
def trimRight (l : List Char) : List Char := (l.reverse.dropWhile isSpace).reverse

/-- Go `strings.TrimSpace line`: drop white space from both ends. -/
def trimSpace (l : List Char) : List Char := trimLeft (trimRight l)

/-- `strings.SplitN(line, "#", 2)[0]`: the text before the first `#`
(the whole line when there is no `#`). -/
def cutHash (l : List Char) : List Char := l.takeWhile (fun c => c ≠ '#')

/-- Accumulator loop of Go `strings.Fields`: `cur` holds the
characters of the field currently being read, in reverse; a white
space character (or the end of input) closes the current field, so
only non-empty fields are ever emitted. -/
def fieldsAcc (cur : List Char) : List Char → List (List Char)
  | [] => if cur.isEmpty then [] else [cur.reverse]
  | c :: cs =>
    if isSpace c then
      if cur.isEmpty then fieldsAcc [] cs
      else cur.reverse :: fieldsAcc [] cs
    else fieldsAcc (c :: cur) cs

/-- Go `strings.Fields`: split on runs of white space, discarding empty
fields. -/
def goFields (l : List Char) : List (List Char) := fieldsAcc [] l

/-- Go `strings.Split(s, "\n")` specialised to a one-character separator:
every occurrence separates, empty pieces are kept. -/
def splitOnChar (sep : Char) : List Char → List (List Char)
  | [] => [[]]
  | c :: cs =>
    if c = sep then [] :: splitOnChar sep cs
    else
      match splitOnChar sep cs with
      | [] => [[c]]
      | p :: ps => (c :: p) :: ps

/-- `strings.SplitN(s, "/", 2)`: the part before the first `/`, and
(when a `/` occurs) the part after it. `none` in the second component
models the one-element slice Go returns when there is no `/`. -/
def splitSlash : List Char → List Char × Option (List Char)
  | [] => ([], none)
  | c :: cs =>
    if c = '/' then ([], some cs)
    else
      let r := splitSlash cs
      (c :: r.1, r.2)

/-- The value of a decimal digit character, `none` for any other
character (Go base-10 parsing accepts only `0`-`9`). -/
def digitVal (c : Char) : Option Nat :=
  if '0' ≤ c ∧ c ≤ '9' then some (c.toNat - '0'.toNat) else none

/-- Accumulating digit loop of Go `strconv.ParseUint` (base 10). -/
def parseDigitsAux : Nat → List Char → Option Nat
  | acc, [] => some acc
  | acc, c :: cs =>
    match digitVal c with
    | none => none
    | some d => parseDigitsAux (acc * 10 + d) cs

/-- Go `strconv.ParseUint(s, 10, _)` digit part: at least one digit,
all characters decimal digits. -/
def parseUintDigits (l : List Char) : Option Nat :=
  match l with
  | [] => none
  | c :: cs => parseDigitsAux 0 (c :: cs)

/-- Go `strconv.ParseInt(s, 10, 32)`: optional single `+`/`-` sign,
then a non-empty run of decimal digits; the value must lie in the
signed 32-bit range, otherwise an error (here `none`). -/
def parseInt32 (s : List Char) : Option Int :=
  match s with
  | [] => none
  | c :: rest =>
    let signDigits : Bool × List Char :=
      if c = '+' then (false, rest)
      else if c = '-' then (true, rest)
      else (false, c :: rest)
    match parseUintDigits signDigits.2 with
    | none => none
    | some n =>
      let v : Int := if signDigits.1 then -(n : Int) else (n : Int)
      if -(2 ^ 31) ≤ v ∧ v ≤ 2 ^ 31 - 1 then some v else none

/-- Go `Protoent` (name, aliases, protocol number). -/
structure Protoent where
  name : List Char
  aliases : List (List Char)
  number : Int
deriving DecidableEq, Repr

/-- Go `Servent` (name, aliases, port, protocol). -/
structure Servent where
  name : List Char
  aliases : List (List Char)
  port : Int
  protocol : List Char
deriving DecidableEq, Repr

/-- Outcome of processing one line inside `init`: the line is skipped
(fewer than two fields), aborts the load (a Go `panic`), or produces a
record. -/
inductive LineResult (α : Type) where
  | skip : LineResult α
  | fatal : LineResult α
  | record : α → LineResult α
deriving DecidableEq, Repr

/-- The fields of one line, as `init` computes them:
`strings.Fields(strings.SplitN(strings.TrimSpace(line), "#", 2)[0])`. -/
def lineFields (line : List Char) : List (List Char) :=
  goFields (cutHash (trimSpace line))

/-- One iteration of the protocol loop of `init`: trim, strip the `#`
comment, split into fields; fewer than two fields is skipped; a
`fields[1]` that fails `ParseInt` aborts; otherwise the record
`{Name: fields[0], Aliases: fields[2:], Number: num}`. -/
def parseProtoLine (line : List Char) : LineResult Protoent :=
  match lineFields line with
  | f0 :: f1 :: rest =>
    match parseInt32 f1 with
    | none => LineResult.fatal
    | some n => LineResult.record ⟨f0, rest, n⟩
  | _ => LineResult.skip

/-- One iteration of the service loop of `init`: as for protocols, but
`fields[1]` is split at the first `/`; a port part that fails
`ParseInt` aborts, and a missing `/` makes `portproto[1]` an
out-of-range access, which also aborts. -/
def parseServLine (line : List Char) : LineResult Servent :=
  match lineFields line with
  | f0 :: f1 :: rest =>
    let pp := splitSlash f1
    match parseInt32 pp.1 with
    | none => LineResult.fatal
    | some p =>
      match pp.2 with
      | none => LineResult.fatal
      | some proto => LineResult.record ⟨f0, rest, p, proto⟩
  | _ => LineResult.skip

/-- The loop of `init` over the split lines, accumulating records in
order; a fatal line aborts the whole load (`none`), as the Go `panic`
terminates initialization. -/
def loadAux {α : Type} (parse : List Char → LineResult α) :
    List (List Char) → List α → Option (List α)
  | [], acc => some acc
  | l :: ls, acc =>
    match parse l with
    | LineResult.skip => loadAux parse ls acc
    | LineResult.fatal => none
    | LineResult.record r => loadAux parse ls (acc ++ [r])

/-- The protocol half of `init`: split the source text on `\n` and run
the protocol loop. -/
def loadProtocols (data : List Char) : Option (List Protoent) :=
  loadAux parseProtoLine (splitOnChar '\n' data) []

/-- The service half of `init`: split the source text on `\n` and run
the service loop. -/
def loadServices (data : List Char) : Option (List Servent) :=
  loadAux parseServLine (splitOnChar '\n' data) []

/-- Go `Protoent.Equal`: two protocol entries are equal iff their
numbers are identical. -/
def Protoent.Equal (a b : Protoent) : Bool := a.number == b.number

/-- Go `GetProtoByNumber` over a loaded table: first record whose
`Number` equals the argument, else the zero value and `false`. -/
def GetProtoByNumber (table : List Protoent) (num : Int) : Protoent × Bool :=
  match table with
  | [] => (⟨[], [], 0⟩, false)
  | p :: rest => if p.number = num then (p, true) else GetProtoByNumber rest num

/-- Go `GetProtoByName`: first record whose `Name` equals the argument,
or (checked before moving on) one of whose `Aliases` equals it. -/
def GetProtoByName (table : List Protoent) (name : List Char) : Protoent × Bool :=
  match table with
  | [] => (⟨[], [], 0⟩, false)
  | p :: rest =>
    if p.name = name then (p, true)
    else if name ∈ p.aliases then (p, true)
    else GetProtoByName rest name

/-- Go `GetServByName`: skip a record when its `Protocol` differs from
a non-empty protocol argument; otherwise match on `Name` or any alias. -/
def GetServByName (table : List Servent) (name protocol : List Char) : Servent × Bool :=
  match table with
  | [] => (⟨[], [], 0, []⟩, false)
  | s :: rest =>
    if s.protocol ≠ protocol ∧ protocol ≠ [] then GetServByName rest name protocol
    else if s.name = name then (s, true)
    else if name ∈ s.aliases then (s, true)
    else GetServByName rest name protocol

/-- Go `GetServByPort`: first record whose `Port` equals the argument
and whose `Protocol` equals the argument or the argument is empty. -/
def GetServByPort (table : List Servent) (port : Int) (protocol : List Char) : Servent × Bool :=
  match table with
  | [] => (⟨[], [], 0, []⟩, false)
  | s :: rest =>
    if s.port = port ∧ (s.protocol = protocol ∨ protocol = []) then (s, true)
    else GetServByPort rest port protocol

/-- Specification-side candidate test for service lookup by name,
written from the spec's words: an empty protocol argument is a
wildcard, a non-empty one must equal the candidate's protocol
exactly, and the name must equal the canonical name or an alias. -/
def servNameBool (name protocol : List Char) (s : Servent) : Bool :=
  (protocol == [] || s.protocol == protocol) &&
    (s.name == name || s.aliases.contains name)

/-- Specification-side candidate test for service lookup by port,
written from the spec's words: the port must match and the protocol
argument must be empty (wildcard) or equal the candidate's protocol. -/
def servPortBool (port : Int) (protocol : List Char) (s : Servent) : Bool :=
  s.port == port && (protocol == [] || s.protocol == protocol)

/-- Specification-side reference for service lookup by name, written
from the spec's words: first match in table order of `servNameBool`. -/
def servByNameSpec (table : List Servent) (name protocol : List Char) : Servent × Bool :=
  match table.find? (servNameBool name protocol) with
  | some s => (s, true)
  | none => (⟨[], [], 0, []⟩, false)

/-- Specification-side reference for service lookup by port, written
from the spec's words: first match in table order of `servPortBool`. -/
def servByPortSpec (table : List Servent) (port : Int) (protocol : List Char) : Servent × Bool :=
  match table.find? (servPortBool port protocol) with
  | some s => (s, true)
  | none => (⟨[], [], 0, []⟩, false)

/-- Join a list of lines, terminating every line with `term`
(the shape of a text file in which each line ends in the terminator). -/
def termJoin (lines : List (List Char)) (term : List Char) : List Char :=
  lines.foldr (fun l acc => l ++ term ++ acc) []

/-! ### Helper lemmas -/

theorem splitSlash_of_not_mem (f : List Char) (h : '/' ∉ f) :
    splitSlash f = (f, none) := by
  induction f with
  | nil => rfl
  | cons c cs ih =>
    simp only [List.mem_cons, not_or] at h
    have hc : ¬ c = '/' := fun hc => h.1 hc.symm
    simp [splitSlash, hc, ih h.2]

theorem loadAux_fatal {α : Type} (parse : List Char → LineResult α) :
    ∀ (ls : List (List Char)) (acc : List α),
      (∃ l ∈ ls, parse l = LineResult.fatal) → loadAux parse ls acc = none := by
  intro ls
  induction ls with
  | nil => intro acc h; simp at h
  | cons l ls ih =>
    intro acc h
    rcases h with ⟨x, hx, hfat⟩
    rcases List.mem_cons.mp hx with rfl | hmem
    · simp [loadAux, hfat]
    · cases hp : parse l with
      | skip => simpa [loadAux, hp] using ih acc ⟨x, hmem, hfat⟩
      | fatal => simp [loadAux, hp]
      | record r => simpa [loadAux, hp] using ih (acc ++ [r]) ⟨x, hmem, hfat⟩

theorem parseServLine_fatal_of_no_slash (l f0 f1 : List Char) (rest : List (List Char))
    (hf : lineFields l = f0 :: f1 :: rest) (hslash : '/' ∉ f1) :
    parseServLine l = LineResult.fatal := by
  have hsplit := splitSlash_of_not_mem f1 hslash
  simp only [parseServLine, hf, hsplit]
  cases hpi : parseInt32 f1 <;> simp [hpi]

theorem getProtoByNumber_found (num : Int) :
    ∀ (table : List Protoent) (i : Nat) (h : i < table.length),
      (∀ r ∈ table.take i, r.number ≠ num) → (table.get ⟨i, h⟩).number = num →
      GetProtoByNumber table num = (table.get ⟨i, h⟩, true) := by
  intro table
  induction table with
  | nil => intro i h; simp at h
  | cons p rest ih =>
    intro i h hbefore hmatch
    cases i with
    | zero =>
      simp only [List.get] at hmatch ⊢
      simp [GetProtoByNumber, hmatch]
    | succ j =>
      have hp : p.number ≠ num := hbefore p (by simp [List.take_succ_cons])
      have hbefore' : ∀ r ∈ rest.take j, r.number ≠ num := by
        intro r hr
        exact hbefore r (by simp [List.take_succ_cons, hr])
      simp only [List.get] at hmatch ⊢
      simpa [GetProtoByNumber, hp] using ih j (Nat.lt_of_succ_lt_succ h) hbefore' hmatch

theorem getProtoByNumber_not_found (num : Int) :
    ∀ (table : List Protoent), (∀ r ∈ table, r.number ≠ num) →
      GetProtoByNumber table num = (⟨[], [], 0⟩, false) := by
  intro table
  induction table with
  | nil => intro _; rfl
  | cons p rest ih =>
    intro hnone
    have hp : p.number ≠ num := hnone p (by simp)
    have hrest : ∀ r ∈ rest, r.number ≠ num := fun r hr => hnone r (by simp [hr])
    simp [GetProtoByNumber, hp, ih hrest]

theorem getProtoByName_found (s : List Char) :
    ∀ (table : List Protoent) (i : Nat) (h : i < table.length),
      (∀ r ∈ table.take i, ¬(r.name = s ∨ s ∈ r.aliases)) →
      ((table.get ⟨i, h⟩).name = s ∨ s ∈ (table.get ⟨i, h⟩).aliases) →
      GetProtoByName table s = (table.get ⟨i, h⟩, true) := by
  intro table
  induction table with
  | nil => intro i h; simp at h
  | cons p rest ih =>
    intro i h hbefore hmatch
    cases i with
    | zero =>
      simp only [List.get] at hmatch ⊢
      rcases hmatch with hn | ha
      · simp [GetProtoByName, hn]
      · by_cases hn : p.name = s
        · simp [GetProtoByName, hn]
        · simp [GetProtoByName, hn, ha]
    | succ j =>
      have hp := hbefore p (by simp [List.take_succ_cons])
      simp only [not_or] at hp
      have hbefore' : ∀ r ∈ rest.take j, ¬(r.name = s ∨ s ∈ r.aliases) := by
        intro r hr
        exact hbefore r (by simp [List.take_succ_cons, hr])
      simp only [List.get] at hmatch ⊢
      simpa [GetProtoByName, hp.1, hp.2] using
        ih j (Nat.lt_of_succ_lt_succ h) hbefore' hmatch

theorem getProtoByName_not_found (s : List Char) :
    ∀ (table : List Protoent), (∀ r ∈ table, ¬(r.name = s ∨ s ∈ r.aliases)) →
      GetProtoByName table s = (⟨[], [], 0⟩, false) := by
  intro table
  induction table with
  | nil => intro _; rfl
  | cons p rest ih =>
    intro hnone
    have hp := hnone p (by simp)
    simp only [not_or] at hp
    have hrest : ∀ r ∈ rest, ¬(r.name = s ∨ s ∈ r.aliases) :=
      fun r hr => hnone r (by simp [hr])
    simp [GetProtoByName, hp.1, hp.2, ih hrest]

/-- The condition under which `GetServByName` accepts a record: the
record passes the protocol filter and matches on name or alias. -/
def servNameMatches (s protocol : List Char) (r : Servent) : Prop :=
  (r.protocol = protocol ∨ protocol = []) ∧ (r.name = s ∨ s ∈ r.aliases)

instance (s protocol : List Char) (r : Servent) : Decidable (servNameMatches s protocol r) :=
  inferInstanceAs (Decidable (_ ∧ _))

theorem getServByName_step (r : Servent) (rest : List Servent) (s protocol : List Char) :
    (servNameMatches s protocol r → GetServByName (r :: rest) s protocol = (r, true)) ∧
    (¬ servNameMatches s protocol r →
      GetServByName (r :: rest) s protocol = GetServByName rest s protocol) := by
  constructor
  · intro hm
    rcases hm with ⟨hproto, hname⟩
    have hskip : ¬(r.protocol ≠ protocol ∧ protocol ≠ []) := by
      rcases hproto with h | h <;> simp [h]
    rcases hname with hn | ha
    · simp [GetServByName, hskip, hn]
    · by_cases hn : r.name = s
      · simp [GetServByName, hskip, hn]
      · simp [GetServByName, hskip, hn, ha]
  · intro hm
    by_cases hskip : r.protocol ≠ protocol ∧ protocol ≠ []
    · simp [GetServByName, hskip]
    · have hname : ¬(r.name = s ∨ s ∈ r.aliases) := by
        intro hname
        exact hm ⟨by tauto, hname⟩
      simp only [not_or] at hname
      simp [GetServByName, hskip, hname.1, hname.2]

theorem getServByName_found (s protocol : List Char) :
    ∀ (table : List Servent) (i : Nat) (h : i < table.length),
      (∀ r ∈ table.take i, ¬ servNameMatches s protocol r) →
      servNameMatches s protocol (table.get ⟨i, h⟩) →
      GetServByName table s protocol = (table.get ⟨i, h⟩, true) := by
  intro table
  induction table with
  | nil => intro i h; simp at h
  | cons r rest ih =>
    intro i h hbefore hmatch
    cases i with
    | zero =>
      simp only [List.get] at hmatch ⊢
      exact (getServByName_step r rest s protocol).1 hmatch
    | succ j =>
      have hr := hbefore r (by simp [List.take_succ_cons])
      have hbefore' : ∀ x ∈ rest.take j, ¬ servNameMatches s protocol x := by
        intro x hx
        exact hbefore x (by simp [List.take_succ_cons, hx])
      simp only [List.get] at hmatch ⊢
      rw [(getServByName_step r rest s protocol).2 hr]
      exact ih j (Nat.lt_of_succ_lt_succ h) hbefore' hmatch

theorem getServByName_not_found (s protocol : List Char) :
    ∀ (table : List Servent), (∀ r ∈ table, ¬ servNameMatches s protocol r) →
      GetServByName table s protocol = (⟨[], [], 0, []⟩, false) := by
  intro table
  induction table with
  | nil => intro _; rfl
  | cons r rest ih =>
    intro hnone
    have hr := hnone r (by simp)
    have hrest : ∀ x ∈ rest, ¬ servNameMatches s protocol x :=
      fun x hx => hnone x (by simp [hx])
    rw [(getServByName_step r rest s protocol).2 hr]
    exact ih hrest

/-! ### Claims -/

theorem servNameMatches_beq (name protocol : List Char) (r : Servent) :
    servNameBool name protocol r = true ↔ servNameMatches name protocol r := by
  simp [servNameBool, servNameMatches, List.contains]
  tauto

theorem servPortMatches_beq (port : Int) (protocol : List Char) (r : Servent) :
    servPortBool port protocol r = true ↔
    (r.port = port ∧ (r.protocol = protocol ∨ protocol = [])) := by
  simp [servPortBool]
  tauto

/-- Claim C1: a service line that, after trimming and comment
stripping, has at least two whitespace-separated fields and whose
second field contains no `/` character is fatal: it is not skipped,
it produces no record with a default protocol, and the whole service
load fails (`none`). -/
theorem serviceLine_missing_slash_fatal
    (data l f0 f1 : List Char) (rest : List (List Char))
    (hl : l ∈ splitOnChar '\n' data)
    (hf : lineFields l = f0 :: f1 :: rest)
    (hslash : '/' ∉ f1) :
    parseServLine l = LineResult.fatal ∧ loadServices data = none := by
  have hfatal := parseServLine_fatal_of_no_slash l f0 f1 rest hf hslash
  exact ⟨hfatal, loadAux_fatal parseServLine _ [] ⟨l, hl, hfatal⟩⟩

/-- Claim C1 witness: the one-line service source `"foo 80"` has two
fields, the second without a `/`, and its load fails. -/
theorem serviceLine_missing_slash_fatal_witness :
    parseServLine ("foo 80".toList) = LineResult.fatal ∧
      loadServices ("foo 80\n".toList) = none :=
  serviceLine_missing_slash_fatal ("foo 80\n".toList) ("foo 80".toList)
    ("foo".toList) ("80".toList) [] (by decide) (by decide) (by decide)

/-- Claim C2: loading is all-or-nothing per table: whenever some line
of the source is fatal (the Go code would panic there), the loader
exposes no partial table — the result is `none`, with no record
sequence at all. -/
theorem load_all_or_nothing (data : List Char) :
    ((∃ l ∈ splitOnChar '\n' data, parseProtoLine l = LineResult.fatal) →
      loadProtocols data = none) ∧
    ((∃ l ∈ splitOnChar '\n' data, parseServLine l = LineResult.fatal) →
      loadServices data = none) := by
  constructor
  · intro h; exact loadAux_fatal parseProtoLine _ [] h
  · intro h; exact loadAux_fatal parseServLine _ [] h

/-- Claim C2 witness: a source with a good first line and a malformed
second line loads to `none`, not to a one-record table. -/
theorem load_all_or_nothing_witness :
    loadProtocols ("tcp 6\nfoo bar\n".toList) = none :=
  (load_all_or_nothing ("tcp 6\nfoo bar\n".toList)).1
    ⟨"foo bar".toList, by decide, by decide⟩

/-- Claim C3: a line with at least two fields whose required numeric
field — `fields[1]` for a protocol line, the part of `fields[1]`
before the first `/` for a service line — fails base-10 32-bit
parsing is fatal: the line is not skipped and the table's load
returns `none`. -/
theorem malformed_number_fatal
    (data l f0 f1 : List Char) (rest : List (List Char))
    (hl : l ∈ splitOnChar '\n' data)
    (hf : lineFields l = f0 :: f1 :: rest) :
    (parseInt32 f1 = none →
      parseProtoLine l = LineResult.fatal ∧ loadProtocols data = none) ∧
    (parseInt32 (splitSlash f1).1 = none →
      parseServLine l = LineResult.fatal ∧ loadServices data = none) := by
  constructor
  · intro hnum
    have hfatal : parseProtoLine l = LineResult.fatal := by
      simp [parseProtoLine, hf, hnum]
    exact ⟨hfatal, loadAux_fatal parseProtoLine _ [] ⟨l, hl, hfatal⟩⟩
  · intro hnum
    have hfatal : parseServLine l = LineResult.fatal := by
      simp [parseServLine, hf, hnum]
    exact ⟨hfatal, loadAux_fatal parseServLine _ [] ⟨l, hl, hfatal⟩⟩

/-- Claim C3 witness: `"foo bar"` has a malformed numeric field and
makes both table loads fail. -/
theorem malformed_number_fatal_witness :
    (parseProtoLine ("foo bar".toList) = LineResult.fatal ∧
      loadProtocols ("foo bar\n".toList) = none) ∧
    (parseServLine ("foo bar".toList) = LineResult.fatal ∧
      loadServices ("foo bar\n".toList) = none) :=
  ⟨(malformed_number_fatal ("foo bar\n".toList) ("foo bar".toList)
      ("foo".toList) ("bar".toList) [] (by decide) (by decide)).1 (by decide),
   (malformed_number_fatal ("foo bar\n".toList) ("foo bar".toList)
      ("foo".toList) ("bar".toList) [] (by decide) (by decide)).2 (by decide)⟩

/-- Claim C4: `GetProtoByNumber` returns `(r, true)` where `r` is the
first record in table order whose number equals the argument — so
when two records share a number the earlier one in file order wins —
and returns the zero-value record with `false` when no record's
number matches. -/
theorem getProtoByNumber_first_match (table : List Protoent) (num : Int) :
    (∀ (i : Nat) (h : i < table.length),
        (∀ r ∈ table.take i, r.number ≠ num) → (table.get ⟨i, h⟩).number = num →
        GetProtoByNumber table num = (table.get ⟨i, h⟩, true)) ∧
    ((∀ r ∈ table, r.number ≠ num) →
        GetProtoByNumber table num = (⟨[], [], 0⟩, false)) :=
  ⟨fun i h => getProtoByNumber_found num table i h, getProtoByNumber_not_found num table⟩

/-- Claim C4 witness: on a table with a duplicate number the earlier
record is returned, and an absent number yields the zero value. -/
theorem getProtoByNumber_first_match_witness :
    GetProtoByNumber [⟨['a'], [], 6⟩, ⟨['b'], [], 6⟩] 6 = (⟨['a'], [], 6⟩, true) ∧
    GetProtoByNumber [⟨['a'], [], 6⟩, ⟨['b'], [], 6⟩] 99 = (⟨[], [], 0⟩, false) :=
  ⟨(getProtoByNumber_first_match [⟨['a'], [], 6⟩, ⟨['b'], [], 6⟩] 6).1 0
      (by decide) (by decide) (by decide),
   (getProtoByNumber_first_match [⟨['a'], [], 6⟩, ⟨['b'], [], 6⟩] 99).2 (by decide)⟩

/-- Claim C5: name lookup scans in table order and returns the first
record whose canonical name equals the argument or whose aliases
contain it (both checked before moving on), by exact string equality;
in particular a record whose canonical name matches, placed earlier,
beats a later record with a matching alias. `found = false` when no
record matches. For the service table a record must also pass the
protocol filter to be a candidate. -/
theorem byName_first_match (tp : List Protoent) (ts : List Servent) (s protocol : List Char) :
    (∀ (i : Nat) (h : i < tp.length),
        (∀ r ∈ tp.take i, ¬(r.name = s ∨ s ∈ r.aliases)) →
        ((tp.get ⟨i, h⟩).name = s ∨ s ∈ (tp.get ⟨i, h⟩).aliases) →
        GetProtoByName tp s = (tp.get ⟨i, h⟩, true)) ∧
    ((∀ r ∈ tp, ¬(r.name = s ∨ s ∈ r.aliases)) →
        GetProtoByName tp s = (⟨[], [], 0⟩, false)) ∧
    (∀ (i : Nat) (h : i < ts.length),
        (∀ r ∈ ts.take i, ¬ servNameMatches s protocol r) →
        servNameMatches s protocol (ts.get ⟨i, h⟩) →
        GetServByName ts s protocol = (ts.get ⟨i, h⟩, true)) ∧
    ((∀ r ∈ ts, ¬ servNameMatches s protocol r) →
        GetServByName ts s protocol = (⟨[], [], 0, []⟩, false)) :=
  ⟨fun i h => getProtoByName_found s tp i h,
   getProtoByName_not_found s tp,
   fun i h => getServByName_found s protocol ts i h,
   getServByName_not_found s protocol ts⟩

/-- Claim C5 witness: the name `x` is the canonical name of the first
record and an alias of the second; lookup resolves to the first. An
alias match works on the service table, and a miss returns the zero
value. -/
theorem byName_first_match_witness :
    GetProtoByName [⟨['x'], [], 1⟩, ⟨['a'], [['x']], 2⟩] ['x'] = (⟨['x'], [], 1⟩, true) ∧
    GetServByName [⟨['h'], [['w']], 80, ['t']⟩] ['w'] [] = (⟨['h'], [['w']], 80, ['t']⟩, true) ∧
    GetProtoByName [⟨['x'], [], 1⟩] ['y'] = (⟨[], [], 0⟩, false) :=
  ⟨(byName_first_match [⟨['x'], [], 1⟩, ⟨['a'], [['x']], 2⟩] [] ['x'] []).1 0
      (by decide) (by decide) (by decide),
   (byName_first_match [] [⟨['h'], [['w']], 80, ['t']⟩] ['w'] []).2.2.1 0
      (by decide) (by decide) (by decide),
   (byName_first_match [⟨['x'], [], 1⟩] [] ['y'] []).2.1 (by decide)⟩

/-- Claim C6: the protocol argument of both service queries is a
filter that is a wildcard when empty: the implementation coincides
with the spec-side first-match references `servByNameSpec` and
`servByPortSpec`, in which an empty protocol argument matches any
candidate and a non-empty one must equal the candidate's protocol
exactly, the first match in table order being returned. -/
theorem serv_protocol_filter_wildcard (table : List Servent) (name : List Char)
    (port : Int) (protocol : List Char) :
    GetServByName table name protocol = servByNameSpec table name protocol ∧
    GetServByPort table port protocol = servByPortSpec table port protocol := by
  induction table with
  | nil => constructor <;> rfl
  | cons r rest ih =>
    constructor
    · by_cases hm : servNameMatches name protocol r
      · rw [(getServByName_step r rest name protocol).1 hm]
        unfold servByNameSpec
        rw [List.find?_cons_of_pos _ ((servNameMatches_beq name protocol r).mpr hm)]
      · rw [(getServByName_step r rest name protocol).2 hm, ih.1]
        unfold servByNameSpec
        rw [List.find?_cons_of_neg _
          (fun htrue => hm ((servNameMatches_beq name protocol r).mp htrue))]
    · by_cases hp : r.port = port ∧ (r.protocol = protocol ∨ protocol = [])
      · rw [show GetServByPort (r :: rest) port protocol = (r, true) by
              simp [GetServByPort, hp]]
        unfold servByPortSpec
        rw [List.find?_cons_of_pos _ ((servPortMatches_beq port protocol r).mpr hp)]
      · rw [show GetServByPort (r :: rest) port protocol =
              GetServByPort rest port protocol by simp [GetServByPort, hp], ih.2]
        unfold servByPortSpec
        rw [List.find?_cons_of_neg _
          (fun htrue => hp ((servPortMatches_beq port protocol r).mp htrue))]

theorem splitOnChar_of_not_mem (sep : Char) (l : List Char) (h : sep ∉ l) :
    splitOnChar sep l = [l] := by
  induction l with
  | nil => rfl
  | cons c cs ih =>
    simp only [List.mem_cons, not_or] at h
    have hc : ¬ c = sep := fun e => h.1 e.symm
    simp [splitOnChar, hc, ih h.2]

/-- Claim C7: loading a source that consists of exactly one valid
protocol line — at least two fields, `fields[1]` parsing as a 32-bit
base-10 integer — yields the one-record table whose name is
`fields[0]` and whose aliases are exactly `fields[2:]` in order, and
`GetProtoByNumber` on the parsed number returns that record. -/
theorem single_proto_line_roundtrip
    (line f0 f1 : List Char) (rest : List (List Char)) (n : Int)
    (hnl : '\n' ∉ line)
    (hf : lineFields line = f0 :: f1 :: rest)
    (hn : parseInt32 f1 = some n) :
    loadProtocols line = some [⟨f0, rest, n⟩] ∧
    GetProtoByNumber [⟨f0, rest, n⟩] n = (⟨f0, rest, n⟩, true) := by
  have hparse : parseProtoLine line = LineResult.record ⟨f0, rest, n⟩ := by
    simp [parseProtoLine, hf, hn]
  constructor
  · unfold loadProtocols
    rw [splitOnChar_of_not_mem '\n' line hnl]
    simp [loadAux, hparse]
  · simp [GetProtoByNumber]

/-- Claim C7 witness: the single line `"tcp 6 TCP"` loads to the
expected one-record table and `GetProtoByNumber 6` finds it. -/
theorem single_proto_line_roundtrip_witness :
    loadProtocols ("tcp 6 TCP".toList) =
      some [⟨"tcp".toList, ["TCP".toList], 6⟩] ∧
    GetProtoByNumber [⟨"tcp".toList, ["TCP".toList], 6⟩] 6 =
      (⟨"tcp".toList, ["TCP".toList], 6⟩, true) :=
  single_proto_line_roundtrip ("tcp 6 TCP".toList) ("tcp".toList) ("6".toList)
    ["TCP".toList] 6 (by decide) (by decide) (by decide)

theorem dropWhile_append_cons (p : Char → Bool) (xs : List Char) (y : Char)
    (ys : List Char) (hy : p y = false) :
    (xs ++ y :: ys).dropWhile p = xs.dropWhile p ++ y :: ys := by
  induction xs with
  | nil => simp [List.dropWhile_cons, hy]
  | cons c cs ih =>
    by_cases hc : p c
    · simp [List.dropWhile_cons, hc, ih]
    · simp [List.dropWhile_cons, hc]

theorem takeWhile_append_cons (p : Char → Bool) (a : List Char) (y : Char)
    (w : List Char) (ha : ∀ c ∈ a, p c = true) (hy : p y = false) :
    (a ++ y :: w).takeWhile p = a := by
  induction a with
  | nil => simp [List.takeWhile_cons, hy]
  | cons c cs ih =>
    have hc : p c = true := ha c (by simp)
    simp [List.takeWhile_cons, hc, ih (fun x hx => ha x (by simp [hx]))]

theorem takeWhile_all (p : Char → Bool) (l : List Char) (h : ∀ c ∈ l, p c = true) :
    l.takeWhile p = l := by
  induction l with
  | nil => rfl
  | cons c cs ih =>
    simp [List.takeWhile_cons, h c (by simp), ih (fun x hx => h x (by simp [hx]))]

theorem mem_takeWhile_p (p : Char → Bool) (l : List Char) (c : Char)
    (hc : c ∈ l.takeWhile p) : p c = true := by
  induction l with
  | nil => simp [List.takeWhile] at hc
  | cons a as ih =>
    by_cases ha : p a
    · rw [List.takeWhile_cons_of_pos ha] at hc
      rcases List.mem_cons.mp hc with rfl | h
      · exact ha
      · exact ih h
    · rw [List.takeWhile_cons_of_neg (by simpa using ha)] at hc
      simp at hc

theorem trimLeft_append_cons (u : List Char) (y : Char) (w : List Char)
    (hy : isSpace y = false) :
    trimLeft (u ++ y :: w) = trimLeft u ++ y :: w :=
  dropWhile_append_cons isSpace u y w hy

theorem trimRight_append_cons (u : List Char) (y : Char) (v : List Char)
    (hy : isSpace y = false) :
    trimRight (u ++ y :: v) = u ++ y :: trimRight v := by
  unfold trimRight
  rw [show (u ++ y :: v).reverse = v.reverse ++ y :: u.reverse by simp]
  rw [dropWhile_append_cons isSpace v.reverse y u.reverse hy]
  simp

theorem cutHash_of_not_mem (l : List Char) (h : '#' ∉ l) : cutHash l = l := by
  apply takeWhile_all
  intro c hc
  simp only [decide_eq_true_eq]
  exact fun e => h (e ▸ hc)

theorem cutHash_append (u w : List Char) (h : '#' ∉ u) :
    cutHash (u ++ '#' :: w) = u := by
  apply takeWhile_append_cons
  · intro c hc
    simp only [decide_eq_true_eq]
    exact fun e => h (e ▸ hc)
  · decide

theorem not_mem_trimLeft (c : Char) (l : List Char) (h : c ∉ l) : c ∉ trimLeft l :=
  fun hc => h (List.dropWhile_subset isSpace hc)

theorem not_mem_trimRight (c : Char) (l : List Char) (h : c ∉ l) : c ∉ trimRight l := by
  intro hc
  unfold trimRight at hc
  rw [List.mem_reverse] at hc
  exact h (List.mem_reverse.mp (List.dropWhile_subset isSpace hc))

theorem fieldsAcc_all_space (s : List Char) (hs : ∀ c ∈ s, isSpace c = true) :
    ∀ cur : List Char, fieldsAcc cur s = if cur.isEmpty then [] else [cur.reverse] := by
  induction s with
  | nil => intro cur; rfl
  | cons c cs ih =>
    intro cur
    have hc : isSpace c = true := hs c (by simp)
    have ih' := ih (fun x hx => hs x (by simp [hx]))
    by_cases hcur : cur.isEmpty
    · simp [fieldsAcc, hc, hcur, ih' []]
    · simp [fieldsAcc, hc, hcur, ih' []]

theorem fieldsAcc_append_space (s : List Char) (hs : ∀ c ∈ s, isSpace c = true) :
    ∀ (x cur : List Char), fieldsAcc cur (x ++ s) = fieldsAcc cur x := by
  intro x
  induction x with
  | nil =>
    intro cur
    rw [List.nil_append, fieldsAcc_all_space s hs cur]
    rfl
  | cons c cs ih =>
    intro cur
    by_cases hc : isSpace c
    · by_cases hcur : cur.isEmpty
      · simp [fieldsAcc, hc, hcur, ih]
      · simp [fieldsAcc, hc, hcur, ih]
    · simp [fieldsAcc, hc, ih]

theorem goFields_trimLeft (l : List Char) : goFields (trimLeft l) = goFields l := by
  unfold goFields trimLeft
  induction l with
  | nil => rfl
  | cons c cs ih =>
    by_cases hc : isSpace c
    · rw [List.dropWhile_cons_of_pos hc, ih]
      simp [fieldsAcc, hc]
    · rw [List.dropWhile_cons_of_neg (by simpa using hc)]

theorem goFields_trimRight (l : List Char) : goFields (trimRight l) = goFields l := by
  have hdecomp : trimRight l ++ (l.reverse.takeWhile isSpace).reverse = l := by
    unfold trimRight
    rw [← List.reverse_append, List.takeWhile_append_dropWhile, List.reverse_reverse]
  have hs : ∀ c ∈ (l.reverse.takeWhile isSpace).reverse, isSpace c = true := by
    intro c hc
    exact mem_takeWhile_p isSpace l.reverse c (List.mem_reverse.mp hc)
  conv_rhs => rw [← hdecomp]
  unfold goFields
  rw [fieldsAcc_append_space _ hs (trimRight l) []]

theorem lineFields_comment (u v : List Char) (h : '#' ∉ u) :
    lineFields (u ++ '#' :: v) = lineFields u := by
  unfold lineFields trimSpace
  rw [trimRight_append_cons u '#' v (by decide),
      trimLeft_append_cons u '#' (trimRight v) (by decide),
      cutHash_append (trimLeft u) (trimRight v) (not_mem_trimLeft _ _ h),
      cutHash_of_not_mem (trimLeft (trimRight u))
        (not_mem_trimLeft _ _ (not_mem_trimRight _ _ h)),
      goFields_trimLeft u, goFields_trimLeft (trimRight u), goFields_trimRight u]

theorem trimSpace_head_hash (line : List Char)
    (h : trimSpace line = [] ∨ (trimSpace line).head? = some '#') :
    lineFields line = [] := by
  unfold lineFields
  rcases h with h | h
  · rw [h]; rfl
  · cases he : trimSpace line with
    | nil => rfl
    | cons c w =>
      rw [he] at h
      simp only [List.head?] at h
      have hc : c = '#' := by injection h
      subst hc
      rw [show cutHash ('#' :: w) = [] from
        List.takeWhile_cons_of_neg (by decide)]
      rfl

/-- Claim C8: parsing truncates a line at the first `#`, discarding
the `#` and everything after it, before splitting into fields: for
any line text `u` without `#`, appending `# ...` does not change the
parse; consequently `"foo 6 bar # trailing comment"` loads exactly
like `"foo 6 bar"`, and a blank or comment-only line yields zero
fields and is skipped. -/
theorem comment_truncation :
    (∀ u v : List Char, '#' ∉ u →
        parseProtoLine (u ++ '#' :: v) = parseProtoLine u ∧
        parseServLine (u ++ '#' :: v) = parseServLine u) ∧
    loadProtocols ("foo 6 bar # trailing comment".toList) =
      loadProtocols ("foo 6 bar".toList) ∧
    (∀ line : List Char,
        (trimSpace line = [] ∨ (trimSpace line).head? = some '#') →
        lineFields line = [] ∧ parseProtoLine line = LineResult.skip ∧
          parseServLine line = LineResult.skip) := by
  refine ⟨fun u v h => ⟨?_, ?_⟩, by decide, fun line h => ?_⟩
  · unfold parseProtoLine
    rw [lineFields_comment u v h]
  · unfold parseServLine
    rw [lineFields_comment u v h]
  · have hf := trimSpace_head_hash line h
    exact ⟨hf, by simp [parseProtoLine, hf], by simp [parseServLine, hf]⟩

/-- Claim C8 witness: truncation at `#` applied to the concrete line
`"foo 6 bar # trailing comment"`, and a comment-only line is skipped. -/
theorem comment_truncation_witness :
    parseProtoLine ("foo 6 bar ".toList ++ '#' :: " trailing comment".toList) =
      parseProtoLine ("foo 6 bar ".toList) ∧
    parseProtoLine ("  # note".toList) = LineResult.skip :=
  ⟨(comment_truncation.1 ("foo 6 bar ".toList) (" trailing comment".toList)
      (by decide)).1,
   (comment_truncation.2.2 ("  # note".toList) (by decide)).2.1⟩

theorem trimSpace_append_cr (l : List Char) : trimSpace (l ++ ['\r']) = trimSpace l := by
  unfold trimSpace trimRight
  rw [show (l ++ ['\r']).reverse = '\r' :: l.reverse by simp,
      List.dropWhile_cons_of_pos (by decide : isSpace '\r' = true)]

theorem parseProtoLine_cr (l : List Char) :
    parseProtoLine (l ++ ['\r']) = parseProtoLine l := by
  unfold parseProtoLine lineFields
  rw [trimSpace_append_cr]

theorem parseServLine_cr (l : List Char) :
    parseServLine (l ++ ['\r']) = parseServLine l := by
  unfold parseServLine lineFields
  rw [trimSpace_append_cr]

theorem splitOnChar_append (sep : Char) (l t : List Char) (h : sep ∉ l) :
    splitOnChar sep (l ++ sep :: t) = l :: splitOnChar sep t := by
  induction l with
  | nil => simp [splitOnChar]
  | cons c cs ih =>
    simp only [List.mem_cons, not_or] at h
    have hc : ¬ c = sep := fun e => h.1 e.symm
    simp [splitOnChar, hc, ih h.2]

theorem split_termJoin_lf (lines : List (List Char)) (h : ∀ l ∈ lines, '\n' ∉ l) :
    splitOnChar '\n' (termJoin lines ['\n']) = lines ++ [[]] := by
  induction lines with
  | nil => rfl
  | cons l ls ih =>
    have hjoin : termJoin (l :: ls) ['\n'] = l ++ '\n' :: termJoin ls ['\n'] := by
      simp [termJoin]
    rw [hjoin, splitOnChar_append '\n' l _ (h l (by simp)),
        ih (fun x hx => h x (by simp [hx]))]
    rfl

theorem split_termJoin_crlf (lines : List (List Char)) (h : ∀ l ∈ lines, '\n' ∉ l) :
    splitOnChar '\n' (termJoin lines ['\r', '\n']) =
      lines.map (fun l => l ++ ['\r']) ++ [[]] := by
  induction lines with
  | nil => rfl
  | cons l ls ih =>
    have hl : '\n' ∉ l ++ ['\r'] := by
      intro hmem
      rcases List.mem_append.mp hmem with h1 | h1
      · exact h l (by simp) h1
      · simp at h1
    have hjoin : termJoin (l :: ls) ['\r', '\n'] =
        (l ++ ['\r']) ++ '\n' :: termJoin ls ['\r', '\n'] := by
      simp [termJoin]
    rw [hjoin, splitOnChar_append '\n' _ _ hl,
        ih (fun x hx => h x (by simp [hx]))]
    rfl

theorem loadAux_append {α : Type} (parse : List Char → LineResult α)
    (xs ys : List (List Char)) :
    ∀ acc : List α, loadAux parse (xs ++ ys) acc =
      match loadAux parse xs acc with
      | none => none
      | some acc2 => loadAux parse ys acc2 := by
  induction xs with
  | nil => intro acc; rfl
  | cons l ls ih =>
    intro acc
    cases hp : parse l <;> simp [loadAux, hp, ih]

theorem loadAux_map_cr {α : Type} (parse : List Char → LineResult α)
    (hparse : ∀ l, parse (l ++ ['\r']) = parse l) :
    ∀ (ls : List (List Char)) (acc : List α),
      loadAux parse (ls.map (fun l => l ++ ['\r'])) acc = loadAux parse ls acc := by
  intro ls
  induction ls with
  | nil => intro acc; rfl
  | cons l ls ih =>
    intro acc
    cases hp : parse l <;> simp [loadAux, hparse l, hp, ih]

/-- Claim C9: loading is insensitive to carriage-return line endings:
a source whose lines are terminated by CRLF loads to exactly the same
table as the same lines terminated by LF, for both tables, because
splitting is on `\n` alone and trimming removes the residual `\r`. -/
theorem crlf_insensitive (lines : List (List Char)) (h : ∀ l ∈ lines, '\n' ∉ l) :
    loadProtocols (termJoin lines ['\r', '\n']) = loadProtocols (termJoin lines ['\n']) ∧
    loadServices (termJoin lines ['\r', '\n']) = loadServices (termJoin lines ['\n']) := by
  constructor
  · unfold loadProtocols
    rw [split_termJoin_crlf lines h, split_termJoin_lf lines h,
        loadAux_append parseProtoLine _ _ [], loadAux_append parseProtoLine _ _ [],
        loadAux_map_cr parseProtoLine parseProtoLine_cr lines []]
  · unfold loadServices
    rw [split_termJoin_crlf lines h, split_termJoin_lf lines h,
        loadAux_append parseServLine _ _ [], loadAux_append parseServLine _ _ [],
        loadAux_map_cr parseServLine parseServLine_cr lines []]

/-- Claim C9 witness: the two-line protocol source `"a 1"`, `"b 2"`
loads identically with CRLF and LF terminators. -/
theorem crlf_insensitive_witness :
    loadProtocols (termJoin ["a 1".toList, "b 2".toList] ['\r', '\n']) =
      loadProtocols (termJoin ["a 1".toList, "b 2".toList] ['\n']) :=
  (crlf_insensitive ["a 1".toList, "b 2".toList] (by decide)).1

theorem fieldsAcc_ne_nil : ∀ (l cur : List Char), ∀ f ∈ fieldsAcc cur l, f ≠ [] := by
  intro l
  induction l with
  | nil =>
    intro cur f hf
    cases cur with
    | nil => simp [fieldsAcc] at hf
    | cons a as =>
      simp only [fieldsAcc, List.isEmpty_cons, Bool.false_eq_true, if_false,
        List.mem_singleton] at hf
      subst hf
      simp
  | cons c cs ih =>
    intro cur f hf
    by_cases hc : isSpace c
    · cases cur with
      | nil => exact ih [] f (by simpa [fieldsAcc, hc] using hf)
      | cons a as =>
        simp only [fieldsAcc, hc, if_true, List.isEmpty_cons, Bool.false_eq_true,
          if_false, List.mem_cons] at hf
        rcases hf with rfl | hf
        · simp
        · exact ih [] f hf
    · exact ih (c :: cur) f (by simpa [fieldsAcc, hc] using hf)

theorem lineFields_ne_nil (l : List Char) : ∀ f ∈ lineFields l, f ≠ [] :=
  fieldsAcc_ne_nil (cutHash (trimSpace l)) []

theorem parseProtoLine_record_nonempty (l : List Char) (r : Protoent)
    (h : parseProtoLine l = LineResult.record r) :
    r.name ≠ [] ∧ ∀ a ∈ r.aliases, a ≠ [] := by
  cases hf : lineFields l with
  | nil => simp [parseProtoLine, hf] at h
  | cons f0 fs =>
    cases fs with
    | nil => simp [parseProtoLine, hf] at h
    | cons f1 rest =>
      simp only [parseProtoLine, hf] at h
      cases hn : parseInt32 f1 with
      | none => rw [hn] at h; exact absurd h (by simp)
      | some n =>
        rw [hn] at h
        simp only [LineResult.record.injEq] at h
        subst h
        refine ⟨lineFields_ne_nil l f0 (by simp [hf]), fun a ha => ?_⟩
        exact lineFields_ne_nil l a (by simp [hf, ha])

theorem parseServLine_record_nonempty (l : List Char) (r : Servent)
    (h : parseServLine l = LineResult.record r) :
    r.name ≠ [] ∧ ∀ a ∈ r.aliases, a ≠ [] := by
  cases hf : lineFields l with
  | nil => simp [parseServLine, hf] at h
  | cons f0 fs =>
    cases fs with
    | nil => simp [parseServLine, hf] at h
    | cons f1 rest =>
      simp only [parseServLine, hf] at h
      cases hn : parseInt32 (splitSlash f1).1 with
      | none => rw [hn] at h; exact absurd h (by simp)
      | some p =>
        rw [hn] at h
        cases hp2 : (splitSlash f1).2 with
        | none => rw [hp2] at h; exact absurd h (by simp)
        | some proto =>
          rw [hp2] at h
          simp only [LineResult.record.injEq] at h
          subst h
          refine ⟨lineFields_ne_nil l f0 (by simp [hf]), fun a ha => ?_⟩
          exact lineFields_ne_nil l a (by simp [hf, ha])

theorem loadAux_preserves {α : Type} (parse : List Char → LineResult α)
    (P : α → Prop) (hparse : ∀ l r, parse l = LineResult.record r → P r) :
    ∀ (ls : List (List Char)) (acc t : List α),
      (∀ r ∈ acc, P r) → loadAux parse ls acc = some t → ∀ r ∈ t, P r := by
  intro ls
  induction ls with
  | nil =>
    intro acc t hacc h
    simp only [loadAux, Option.some.injEq] at h
    exact h ▸ hacc
  | cons l ls ih =>
    intro acc t hacc h
    cases hp : parse l with
    | skip =>
      rw [show loadAux parse (l :: ls) acc = loadAux parse ls acc by
        simp [loadAux, hp]] at h
      exact ih acc t hacc h
    | fatal =>
      rw [show loadAux parse (l :: ls) acc = none by simp [loadAux, hp]] at h
      exact absurd h (by simp)
    | record r =>
      rw [show loadAux parse (l :: ls) acc = loadAux parse ls (acc ++ [r]) by
        simp [loadAux, hp]] at h
      refine ih (acc ++ [r]) t ?_ h
      intro x hx
      rcases List.mem_append.mp hx with hx | hx
      · exact hacc x hx
      · rw [List.mem_singleton.mp hx]
        exact hparse l r hp

/-- Claim C10: every record of a successfully loaded table has a
non-empty canonical name and only non-empty aliases, because field
splitting discards empty fields; consequently a name lookup with the
empty string always returns not-found, on both tables and for every
protocol argument. -/
theorem loaded_names_nonempty (pdata sdata : List Char)
    (tp : List Protoent) (ts : List Servent)
    (hp : loadProtocols pdata = some tp) (hs : loadServices sdata = some ts) :
    (∀ r ∈ tp, r.name ≠ [] ∧ ∀ a ∈ r.aliases, a ≠ []) ∧
    (∀ r ∈ ts, r.name ≠ [] ∧ ∀ a ∈ r.aliases, a ≠ []) ∧
    GetProtoByName tp [] = (⟨[], [], 0⟩, false) ∧
    (∀ protocol : List Char, GetServByName ts [] protocol = (⟨[], [], 0, []⟩, false)) := by
  have hptab : ∀ r ∈ tp, r.name ≠ [] ∧ ∀ a ∈ r.aliases, a ≠ [] :=
    loadAux_preserves parseProtoLine _ parseProtoLine_record_nonempty
      (splitOnChar '\n' pdata) [] tp (by simp) hp
  have hstab : ∀ r ∈ ts, r.name ≠ [] ∧ ∀ a ∈ r.aliases, a ≠ [] :=
    loadAux_preserves parseServLine _ parseServLine_record_nonempty
      (splitOnChar '\n' sdata) [] ts (by simp) hs
  refine ⟨hptab, hstab, ?_, ?_⟩
  · apply getProtoByName_not_found
    intro r hr
    rcases hptab r hr with ⟨hn, ha⟩
    rintro (he | he)
    · exact hn he
    · exact ha [] he rfl
  · intro protocol
    apply getServByName_not_found
    intro r hr
    rcases hstab r hr with ⟨hn, ha⟩
    rintro ⟨-, he | he⟩
    · exact hn he
    · exact ha [] he rfl

/-- Claim C10 witness: the empty string finds nothing in concretely
loaded protocol and service tables. -/
theorem loaded_names_nonempty_witness :
    GetProtoByName [⟨"tcp".toList, ["TCP".toList], 6⟩] [] = (⟨[], [], 0⟩, false) ∧
    GetServByName [⟨"http".toList, ["www".toList], 80, "tcp".toList⟩] [] [] =
      (⟨[], [], 0, []⟩, false) := by
  have h := loaded_names_nonempty ("tcp 6 TCP\n".toList) ("http 80/tcp www\n".toList)
    [⟨"tcp".toList, ["TCP".toList], 6⟩]
    [⟨"http".toList, ["www".toList], 80, "tcp".toList⟩]
    (by decide) (by decide)
  exact ⟨h.2.2.1, h.2.2.2 []⟩

end Netdb
